import Mathlib

/-!
Verification of the simplefix streaming FIX parser
(src/simplefix/parser.py, class FixParser).

The parser state is a raw accumulation buffer plus a list of parsed
tag=value strings ("pairs").  `get_message` tokenises the buffer on the
delimiter byte, resynchronises by discarding leading fields that do not
begin with the start-marker literal, scans for the checksum field, and
emits one complete message when both markers are present.
-/

set_option maxHeartbeats 1000000

/-- Modelled from the spec: the field delimiter byte (SOH, value 0x01).  The
constant itself lives in the message module, which is not included under
src/. -/
def SOH : Char := Char.ofNat 1

/-- Modelled from the spec: the external message-builder collaborator
(class FixMessage of the message module, not included under src/).  It
accepts an ordered list of raw tag=value strings and stores them as raw
(tag, value) fields, each identified by a leading integer tag and an `=`
separator. -/
structure FixMessage where
  fields : List (Nat × List Char)
deriving DecidableEq

/-- Decimal value of a digit string. -/
def natOfDigits (l : List Char) : Nat :=
  l.foldl (fun n c => 10 * n + (c.toNat - 48)) 0

/-- Modelled from the spec: split a raw field string at its `=` separator
into a (tag, value) pair with an integer tag. -/
def parseField (s : List Char) : Nat × List Char :=
  (natOfDigits (s.takeWhile (fun c => ¬ (c = '='))),
   (s.dropWhile (fun c => ¬ (c = '='))).drop 1)

/-- Modelled from the spec: `FixMessage.append_strings` appends the given raw
tag=value strings, in order, as the message's fields. -/
def FixMessage.append_strings (ss : List (List Char)) : FixMessage :=
  ⟨ss.map parseField⟩

/-- Parser state of class FixParser: `buf` is the raw accumulation buffer,
`pairs` the parsed tag=value strings removed from the buffer but not yet
returned as a message. -/
structure FixParser where
  buf : List Char
  pairs : List (List Char)
deriving DecidableEq

/-- `reset` (also the constructor): empty buffer, no pending pairs. -/
def FixParser.reset : FixParser := ⟨[], []⟩

/-- `append_buffer`: append a character string to the parser buffer. -/
def append_buffer (p : FixParser) (b : List Char) : FixParser :=
  ⟨p.buf ++ b, p.pairs⟩

/-- `get_buffer`: return the internal buffer. -/
def get_buffer (p : FixParser) : List Char := p.buf

/-- `self.buf.split(SOH)`: split on the delimiter byte.  Like Python's
`str.split`, the result is always non-empty and its last element is the
trailing fragment after the final delimiter. -/
def splitSOH : List Char → List (List Char)
  | [] => [[]]
  | c :: rest =>
      if c = SOH then [] :: splitSOH rest
      else (c :: (splitSOH rest).headI) :: (splitSOH rest).tail

/-- The (negated) test `self.pairs[0][:6] != "8=FIX."`: does a field begin a
message? -/
def isStart (f : List Char) : Bool := decide (f.take 6 = "8=FIX.".toList)

/-- The test `self.pairs[index][:3] == "10="`: is a field the checksum
field? -/
def isChecksum (f : List Char) : Bool := decide (f.take 3 = "10=".toList)

/-- The resynchronisation loop
`while self.pairs and self.pairs[0][:6] != "8=FIX.": self.pairs.pop(0)`. -/
def resync : List (List Char) → List (List Char)
  | [] => []
  | f :: rest => if isStart f then f :: rest else resync rest

/-- The checksum scan
`index = 0; while index < len(self.pairs) and self.pairs[index][:3] != "10=": index += 1`,
expressed structurally: the first index whose field passes the checksum
test, or the length of the list when none does (the loop's exit value). -/
def findChecksum : List (List Char) → Nat
  | [] => 0
  | f :: rest => if isChecksum f then 0 else findChecksum rest + 1

/-- The tail of `get_message` after tokenisation: the emptiness check, the
start-marker resynchronisation, the checksum scan and message assembly,
acting on the updated pairs (`pairs1`) and buffer (`buf1`). -/
def assemble (buf1 : List Char) (pairs1 : List (List Char)) :
    Option FixMessage × FixParser :=
  if pairs1.length = 0 then (none, ⟨buf1, pairs1⟩)
  else
    let pairs2 := resync pairs1
    if pairs2.length = 0 then (none, ⟨buf1, pairs2⟩)
    else
      let index := findChecksum pairs2
      if index = pairs2.length then (none, ⟨buf1, pairs2⟩)
      else
        (some (FixMessage.append_strings (pairs2.take (index + 1))),
         ⟨buf1, pairs2.drop (index + 1)⟩)

/-- `get_message`: tokenise the buffer into pairs (`pairs = self.buf.split(SOH)`,
promote `pairs[:-1]`, keep `pairs[-1]` as the new buffer, with '' when the
buffer ended on a delimiter), then attempt to assemble the first complete
message.  Returns the optional message and the successor state. -/
def get_message (p : FixParser) : Option FixMessage × FixParser :=
  let ps := splitSOH p.buf
  if ps.length > 0 then
    assemble (if ps.getLastD [] = [] then [] else ps.getLastD [])
      (p.pairs ++ ps.dropLast)
  else
    assemble p.buf p.pairs

/-- Wire encoding of a field list: each field followed by the delimiter. -/
def encode (fs : List (List Char)) : List Char :=
  (fs.map (fun f => f ++ [SOH])).flatten

/-- A complete well-formed message, as its field list: non-empty,
delimiter-free fields, beginning with a start-marker field, with the
checksum field last and nowhere else. -/
def wellFormed (fs : List (List Char)) : Prop :=
  fs ≠ [] ∧ (∀ f ∈ fs, SOH ∉ f) ∧ isStart fs.headI = true ∧
    (∀ f ∈ fs.dropLast, isChecksum f = false) ∧ isChecksum (fs.getLastD []) = true

instance (fs : List (List Char)) : Decidable (wellFormed fs) := by
  unfold wellFormed
  exact inferInstance

/-- Deliver a byte stream in consecutive chunks: for each chunk, one
`append_buffer` call followed by one `get_message` call.  Returns the list
of per-chunk extraction results and the final parser state. -/
def runChunks (p : FixParser) : List (List Char) → List (Option FixMessage) × FixParser
  | [] => ([], p)
  | c :: cs =>
      ((get_message (append_buffer p c)).1 ::
          (runChunks (get_message (append_buffer p c)).2 cs).1,
        (runChunks (get_message (append_buffer p c)).2 cs).2)

/-- One caller-visible parser operation. -/
inductive Op where
  | append (b : List Char) : Op
  | extract : Op
deriving DecidableEq

/-- Effect of one operation on the parser state, together with the message
it emitted, if any. -/
def step (p : FixParser) : Op → FixParser × Option FixMessage
  | .append b => (append_buffer p b, none)
  | .extract => ((get_message p).2, (get_message p).1)

/-- Run a sequence of operations, collecting every emitted message in
order. -/
def runOps (p : FixParser) : List Op → FixParser × List FixMessage
  | [] => (p, [])
  | op :: ops =>
      ((runOps (step p op).1 ops).1,
        ((step p op).2.toList ++ (runOps (step p op).1 ops).2))

/-- Python list indexing `l[i]` with its bounds check: the raised
`IndexError` is modelled as the error case. -/
def listGetE {α : Type} (l : List α) (i : Nat) : Except String α :=
  match l.get? i with
  | some a => Except.ok a
  | none => Except.error "IndexError: list index out of range"

/-- Python `l.pop(0)` with its emptiness check: returns the remaining list;
the raised `IndexError` is modelled as the error case. -/
def listPopE {α : Type} : List α → Except String (List α)
  | [] => Except.error "IndexError: pop from empty list"
  | _ :: t => Except.ok t

/-- The resynchronisation loop with every list access checked: the
condition reads `self.pairs[0]` (only after the truthiness test on
`self.pairs`) and the body performs `self.pairs.pop(0)`.  The popped tail
of the checked non-empty list `f :: rest` is `rest`, on which the loop
recurses. -/
def resyncE : List (List Char) → Except String (List (List Char))
  | [] => Except.ok []
  | f :: rest =>
      match listGetE (f :: rest) 0 with
      | Except.error e => Except.error e
      | Except.ok g =>
          if isStart g then Except.ok (f :: rest)
          else
            match listPopE (f :: rest) with
            | Except.error e => Except.error e
            | Except.ok _ => resyncE rest

/-- The checksum scan with every list access checked: the loop guard tests
`index < len(self.pairs)` before reading `self.pairs[index]`, which here is
the head of the remaining sublist. -/
def findChecksumE : List (List Char) → Except String Nat
  | [] => Except.ok 0
  | f :: rest =>
      match listGetE (f :: rest) 0 with
      | Except.error e => Except.error e
      | Except.ok g =>
          if isChecksum g then Except.ok 0
          else
            match findChecksumE rest with
            | Except.error e => Except.error e
            | Except.ok n => Except.ok (n + 1)

/-- The assembly stage with every fallible list operation checked. -/
def assembleE (buf1 : List Char) (pairs1 : List (List Char)) :
    Except String (Option FixMessage × FixParser) :=
  if pairs1.length = 0 then Except.ok (none, ⟨buf1, pairs1⟩)
  else
    match resyncE pairs1 with
    | Except.error e => Except.error e
    | Except.ok pairs2 =>
        if pairs2.length = 0 then Except.ok (none, ⟨buf1, pairs2⟩)
        else
          match findChecksumE pairs2 with
          | Except.error e => Except.error e
          | Except.ok index =>
              if index = pairs2.length then Except.ok (none, ⟨buf1, pairs2⟩)
              else
                Except.ok
                  (some (FixMessage.append_strings (pairs2.take (index + 1))),
                   ⟨buf1, pairs2.drop (index + 1)⟩)

/-- `get_message` with every fallible operation checked: the tokenisation
step reads `pairs[-1]` (index `len(pairs) - 1`) after the `len(pairs) > 0`
guard; a raised exception anywhere surfaces as the error case. -/
def get_messageE (p : FixParser) : Except String (Option FixMessage × FixParser) :=
  let ps := splitSOH p.buf
  if ps.length > 0 then
    match listGetE ps (ps.length - 1) with
    | Except.error e => Except.error e
    | Except.ok last =>
        assembleE (if last = [] then [] else last) (p.pairs ++ ps.dropLast)
  else assembleE p.buf p.pairs

/-! ### Basic properties of the tokenizer -/

lemma splitSOH_cons (c : Char) (rest : List Char) :
    splitSOH (c :: rest) =
      if c = SOH then [] :: splitSOH rest
      else (c :: (splitSOH rest).headI) :: (splitSOH rest).tail := rfl

lemma splitSOH_ne_nil (l : List Char) : splitSOH l ≠ [] := by
  cases l with
  | nil => simp [splitSOH]
  | cons c rest =>
      unfold splitSOH
      split <;> simp

lemma splitSOH_no_delim (l : List Char) (h : SOH ∉ l) : splitSOH l = [l] := by
  induction l with
  | nil => rfl
  | cons c rest ih =>
      rw [List.mem_cons, not_or] at h
      rw [splitSOH_cons, if_neg (fun hc => h.1 hc.symm), ih h.2]
      rfl

lemma splitSOH_field (f rest : List Char) (h : SOH ∉ f) :
    splitSOH (f ++ SOH :: rest) = f :: splitSOH rest := by
  induction f with
  | nil => simp [splitSOH]
  | cons c f' ih =>
      rw [List.mem_cons, not_or] at h
      rw [List.cons_append, splitSOH_cons, if_neg (fun hc => h.1 hc.symm),
        ih h.2]
      rfl

lemma encode_cons (f : List Char) (fs : List (List Char)) :
    encode (f :: fs) = f ++ SOH :: encode fs := by
  simp [encode]

lemma encode_append (fs gs : List (List Char)) :
    encode (fs ++ gs) = encode fs ++ encode gs := by
  simp [encode]

lemma splitSOH_encode (fs : List (List Char)) (b : List Char)
    (h : ∀ f ∈ fs, SOH ∉ f) :
    splitSOH (encode fs ++ b) = fs ++ splitSOH b := by
  induction fs with
  | nil => simp [encode]
  | cons f fs' ih =>
      rw [encode_cons, List.append_assoc, List.cons_append,
        splitSOH_field f _ (h f (List.mem_cons_self f fs'))]
      rw [ih fun g hg => h g (List.mem_cons_of_mem f hg)]
      rfl

lemma splitSOH_encode_nil (fs : List (List Char)) (h : ∀ f ∈ fs, SOH ∉ f) :
    splitSOH (encode fs) = fs ++ [[]] := by
  have := splitSOH_encode fs [] h
  simpa [splitSOH] using this

lemma mem_splitSOH_no_delim (l : List Char) :
    ∀ x ∈ splitSOH l, SOH ∉ x := by
  induction l with
  | nil =>
      intro x hx
      simp [splitSOH] at hx
      simp [hx]
  | cons c rest ih =>
      intro x hx
      unfold splitSOH at hx
      by_cases hc : c = SOH
      · rw [if_pos hc] at hx
        rcases List.mem_cons.mp hx with h1 | h2
        · simp [h1]
        · exact ih x h2
      · rw [if_neg hc] at hx
        rcases List.mem_cons.mp hx with h1 | h2
        · subst h1
          intro hmem
          rcases List.mem_cons.mp hmem with h3 | h4
          · exact hc h3.symm
          · rcases hh : splitSOH rest with _ | ⟨y, ys⟩
            · exact splitSOH_ne_nil rest hh
            · have : y ∈ splitSOH rest := by rw [hh]; exact List.mem_cons_self y ys
              have hy := ih y this
              rw [hh] at h4
              exact hy (by simpa [List.headI] using h4)
        · rcases hh : splitSOH rest with _ | ⟨y, ys⟩
          · exact absurd hh (splitSOH_ne_nil rest)
          · rw [hh] at h2
            exact ih x (by rw [hh]; exact List.mem_cons_of_mem y (by simpa using h2))

lemma getLastD_mem {α : Type} (l : List α) (h : l ≠ []) :
    ∀ d, l.getLastD d ∈ l := by
  induction l with
  | nil => exact absurd rfl h
  | cons a l' ih =>
      intro d
      cases l' with
      | nil => simp [List.getLastD]
      | cons b l'' =>
          rw [List.getLastD_cons]
          exact List.mem_cons_of_mem a (ih (by simp) a)

/-! ### Normal form of get_message -/

lemma get_message_eq (p : FixParser) :
    get_message p =
      assemble ((splitSOH p.buf).getLastD [])
        (p.pairs ++ (splitSOH p.buf).dropLast) := by
  unfold get_message
  have hne := splitSOH_ne_nil p.buf
  rw [if_pos (List.length_pos.mpr hne)]
  by_cases hl : (splitSOH p.buf).getLastD [] = []
  · rw [if_pos hl, hl]
  · rw [if_neg hl]

lemma assemble_buf (b : List Char) (l : List (List Char)) :
    ((assemble b l).2).buf = b := by
  simp only [assemble]
  split_ifs <;> rfl

/-! ### Properties of the resynchronisation loop -/

lemma resync_cons_start (f : List Char) (l : List (List Char))
    (h : isStart f = true) : resync (f :: l) = f :: l := by
  simp [resync, h]

lemma resync_cons_not_start (f : List Char) (l : List (List Char))
    (h : isStart f = false) : resync (f :: l) = resync l := by
  simp [resync, h]

lemma resync_all_not_start (l : List (List Char))
    (h : ∀ f ∈ l, isStart f = false) : resync l = [] := by
  induction l with
  | nil => rfl
  | cons f l' ih =>
      rw [resync_cons_not_start f l' (h f (List.mem_cons_self f l'))]
      exact ih fun g hg => h g (List.mem_cons_of_mem f hg)

lemma resync_append_not_start (g l : List (List Char))
    (h : ∀ f ∈ g, isStart f = false) : resync (g ++ l) = resync l := by
  induction g with
  | nil => simp
  | cons f g' ih =>
      rw [List.cons_append,
        resync_cons_not_start f _ (h f (List.mem_cons_self f g'))]
      exact ih fun x hx => h x (List.mem_cons_of_mem f hx)

lemma resync_head_start (l : List (List Char)) (g : List Char)
    (h : (resync l).head? = some g) : isStart g = true := by
  induction l with
  | nil => simp [resync] at h
  | cons f l' ih =>
      by_cases hf : isStart f
      · rw [resync_cons_start f l' hf] at h
        simp at h
        rw [← h]
        exact hf
      · rw [resync_cons_not_start f l' (by simpa using hf)] at h
        exact ih h

lemma resync_to_suffix (s : List Char) (hs : isStart s = true) :
    ∀ (l r : List (List Char)), ∃ t, resync (l ++ s :: r) = t ++ s :: r := by
  intro l
  induction l with
  | nil =>
      intro r
      exact ⟨[], by rw [List.nil_append, resync_cons_start s r hs]⟩
  | cons f l' ih =>
      intro r
      by_cases hf : isStart f
      · exact ⟨f :: l', by
          rw [List.cons_append, resync_cons_start f _ hf]⟩
      · obtain ⟨t, ht⟩ := ih r
        exact ⟨t, by
          rw [List.cons_append, resync_cons_not_start f _ (by simpa using hf)]
          exact ht⟩

/-! ### Properties of the checksum scan -/

lemma findChecksum_all_not (l : List (List Char))
    (h : ∀ f ∈ l, isChecksum f = false) : findChecksum l = l.length := by
  induction l with
  | nil => rfl
  | cons f l' ih =>
      rw [findChecksum, if_neg (by simp [h f (List.mem_cons_self f l')]),
        ih fun g hg => h g (List.mem_cons_of_mem f hg)]
      simp

lemma findChecksum_append_cons (l r : List (List Char)) (e : List Char)
    (hl : ∀ f ∈ l, isChecksum f = false) (he : isChecksum e = true) :
    findChecksum (l ++ e :: r) = l.length := by
  induction l with
  | nil => simp [findChecksum, he]
  | cons f l' ih =>
      rw [List.cons_append, findChecksum,
        if_neg (by simp [hl f (List.mem_cons_self f l')]),
        ih fun g hg => hl g (List.mem_cons_of_mem f hg)]
      simp

lemma findChecksum_lt_of_mem (l : List (List Char)) (e : List Char)
    (hmem : e ∈ l) (he : isChecksum e = true) :
    findChecksum l < l.length := by
  induction l with
  | nil => simp at hmem
  | cons f l' ih =>
      rw [findChecksum]
      by_cases hf : isChecksum f
      · rw [if_pos hf]
        simp
      · rw [if_neg hf]
        rcases List.mem_cons.mp hmem with h1 | h2
        · exact absurd (h1 ▸ he) hf
        · have := ih h2
          simpa [Nat.succ_lt_succ_iff] using this

/-! ### Behaviour of the assembly stage -/

lemma assemble_nil (b : List Char) : assemble b [] = (none, ⟨b, []⟩) := rfl

/-- A well-formed message preceded by non-start-marker garbage and followed by
arbitrary further pairs is assembled into exactly its own fields; the
garbage is discarded and the trailing pairs remain pending. -/
lemma assemble_garbage_msg (g fs r : List (List Char)) (b : List Char)
    (hg : ∀ x ∈ g, isStart x = false) (hwf : wellFormed fs) :
    assemble b (g ++ fs ++ r) =
      (some (FixMessage.append_strings fs), ⟨b, r⟩) := by
  obtain ⟨hne, _hfree, hhead, hmid, hlast⟩ := hwf
  rcases List.eq_nil_or_concat fs with h0 | ⟨l, e, hle⟩
  · exact absurd h0 hne
  · rw [List.concat_eq_append] at hle
    have hmid' : ∀ f ∈ l, isChecksum f = false := by
      intro f hf
      exact hmid f (by rw [hle, List.dropLast_concat]; exact hf)
    have hlast' : isChecksum e = true := by
      rw [hle, List.getLastD_concat] at hlast
      exact hlast
    rcases fs with _ | ⟨f₀, fs'⟩
    · exact absurd rfl hne
    · have hstart : isStart f₀ = true := hhead
      have hres : resync ((g ++ (f₀ :: fs')) ++ r) = (f₀ :: fs') ++ r := by
        rw [List.append_assoc, resync_append_not_start g _ hg,
          List.cons_append, resync_cons_start _ _ hstart]
      have hform : (f₀ :: fs') ++ r = l ++ e :: r := by
        rw [hle, List.append_assoc, List.singleton_append]
      have hidx : findChecksum ((f₀ :: fs') ++ r) = l.length := by
        rw [hform]
        exact findChecksum_append_cons l r e hmid' hlast'
      have hlen1 : (g ++ ((f₀ :: fs') ++ r)).length ≠ 0 := by
        simp
      have hlen2 : ((f₀ :: fs') ++ r).length ≠ 0 := by
        simp
      have hlt : l.length ≠ ((f₀ :: fs') ++ r).length := by
        rw [hform]
        simp only [List.length_append, List.length_cons]
        omega
      have hsplit : l ++ e :: r = (l ++ [e]) ++ r := by
        simp
      have htake : ((f₀ :: fs') ++ r).take (l.length + 1) = f₀ :: fs' := by
        rw [hform, hsplit, List.take_left' (by simp), ← hle]
      have hdrop : ((f₀ :: fs') ++ r).drop (l.length + 1) = r := by
        rw [hform, hsplit, List.drop_left' (by simp)]
      rw [show g ++ (f₀ :: fs') ++ r = g ++ ((f₀ :: fs') ++ r) from
        List.append_assoc g _ r] at hres ⊢
      simp only [assemble]
      rw [if_neg hlen1, hres, if_neg hlen2, hidx,
        if_neg hlt, htake, hdrop]

/-- A proper prefix of a well-formed message (as a field list) assembles to
nothing and is retained unchanged. -/
lemma assemble_take (fs : List (List Char)) (hwf : wellFormed fs)
    (k : Nat) (hk : k < fs.length) (b : List Char) :
    assemble b (fs.take k) = (none, ⟨b, fs.take k⟩) := by
  obtain ⟨hne, _hfree, hhead, hmid, _hlast⟩ := hwf
  have hnochk : ∀ f ∈ fs.take k, isChecksum f = false := by
    intro f hf
    apply hmid
    rw [List.dropLast_eq_take]
    have : fs.take k = (fs.take (fs.length - 1)).take k := by
      rw [List.take_take]
      congr 1
      omega
    rw [this] at hf
    exact List.mem_of_mem_take hf
  cases k with
  | zero => simp [assemble]
  | succ k' =>
      rcases fs with _ | ⟨f₀, fs'⟩
      · exact absurd rfl hne
      · rw [List.take_succ_cons]
        have hres : resync (f₀ :: fs'.take k') = f₀ :: fs'.take k' :=
          resync_cons_start _ _ hhead
        have hidx : findChecksum (f₀ :: fs'.take k') =
            (f₀ :: fs'.take k').length := by
          apply findChecksum_all_not
          intro f hf
          apply hnochk
          rw [List.take_succ_cons]
          exact hf
        simp only [assemble]
        rw [if_neg (by simp), hres, if_neg (by simp), hidx, if_pos rfl]

/-! ### get_message on encoded input -/

lemma get_message_of_encode (pairs fs : List (List Char)) (b : List Char)
    (hfree : ∀ f ∈ fs, SOH ∉ f) (hb : SOH ∉ b) :
    get_message ⟨encode fs ++ b, pairs⟩ =
      assemble b (pairs ++ fs) := by
  rw [get_message_eq]
  have hsplit : splitSOH (encode fs ++ b) = fs ++ [b] := by
    rw [splitSOH_encode fs b hfree, splitSOH_no_delim b hb]
  rw [hsplit, List.getLastD_concat, List.dropLast_concat]

lemma get_message_buf_nil (pairs : List (List Char)) :
    get_message ⟨[], pairs⟩ = assemble [] pairs := by
  have h := get_message_of_encode pairs [] [] (by simp) (by simp)
  simpa [encode] using h

/-- The central single-buffer extraction fact: a buffer holding encoded
non-start-marker garbage followed by one encoded well-formed message yields
exactly that message and leaves the parser empty. -/
lemma get_message_garbage_encode (g fs : List (List Char))
    (hg : ∀ x ∈ g, SOH ∉ x ∧ isStart x = false) (hwf : wellFormed fs) :
    get_message ⟨encode g ++ encode fs, []⟩ =
      (some (FixMessage.append_strings fs), FixParser.reset) := by
  have hfree : ∀ f ∈ g ++ fs, SOH ∉ f := by
    intro f hf
    rcases List.mem_append.mp hf with h1 | h2
    · exact (hg f h1).1
    · exact hwf.2.1 f h2
  have h0 : get_message ⟨encode (g ++ fs) ++ [], []⟩ =
      assemble [] ([] ++ (g ++ fs)) :=
    get_message_of_encode [] (g ++ fs) [] hfree (by simp)
  rw [encode_append] at h0
  rw [List.append_nil] at h0
  rw [h0, List.nil_append]
  have h1 := assemble_garbage_msg g fs [] [] (fun x hx => (hg x hx).2) hwf
  rw [List.append_nil] at h1
  exact h1

lemma get_message_encode_wf (fs : List (List Char)) (hwf : wellFormed fs) :
    get_message ⟨encode fs, []⟩ =
      (some (FixMessage.append_strings fs), FixParser.reset) := by
  have h := get_message_garbage_encode [] fs (by simp) hwf
  simpa [encode] using h

/-! ### Decomposing a chunked encoding -/

lemma append_eq_field_cons (f : List Char) :
    ∀ (b₁ b₂ rest : List Char), b₁ ++ b₂ = f ++ SOH :: rest →
      (∃ n, b₁ = f.take n) ∨
        (∃ b₁', b₁ = f ++ SOH :: b₁' ∧ b₁' ++ b₂ = rest) := by
  induction f with
  | nil =>
      intro b₁ b₂ rest h
      cases b₁ with
      | nil => exact Or.inl ⟨0, rfl⟩
      | cons c b₁' =>
          rw [List.cons_append, List.nil_append] at h
          have hc : c = SOH := (List.cons.injEq _ _ _ _ ▸ h).1
          have ht : b₁' ++ b₂ = rest := (List.cons.injEq _ _ _ _ ▸ h).2
          exact Or.inr ⟨b₁', by rw [hc]; rfl, ht⟩
  | cons x f' ih =>
      intro b₁ b₂ rest h
      cases b₁ with
      | nil => exact Or.inl ⟨0, rfl⟩
      | cons c b₁' =>
          rw [List.cons_append, List.cons_append] at h
          have hc : c = x := (List.cons.injEq _ _ _ _ ▸ h).1
          have ht : b₁' ++ b₂ = f' ++ SOH :: rest := (List.cons.injEq _ _ _ _ ▸ h).2
          rcases ih b₁' b₂ rest ht with ⟨n, hn⟩ | ⟨b₁'', hb, hr⟩
          · exact Or.inl ⟨n + 1, by rw [hc, hn, List.take_succ_cons]⟩
          · exact Or.inr ⟨b₁'', by rw [hc, hb, List.cons_append], hr⟩

/-- Splitting a left piece of an encoded field sequence: the piece
tokenises into the first `k` complete fields plus a delimiter-free
trailing fragment, and the piece reaches the end of the sequence only
when nothing follows it. -/
lemma splitSOH_chunk (fs : List (List Char)) :
    ∀ (b₁ b₂ : List Char), (∀ f ∈ fs, SOH ∉ f) → b₁ ++ b₂ = encode fs →
      ∃ k frag, k ≤ fs.length ∧ splitSOH b₁ = fs.take k ++ [frag] ∧
        encode (fs.take k) ++ frag = b₁ ∧ SOH ∉ frag ∧
        (b₂ ≠ [] → k < fs.length) := by
  induction fs with
  | nil =>
      intro b₁ b₂ _ h
      have hnil : b₁ = [] ∧ b₂ = [] := by
        constructor
        · exact (List.append_eq_nil.mp (by simpa [encode] using h)).1
        · exact (List.append_eq_nil.mp (by simpa [encode] using h)).2
      refine ⟨0, [], by simp, ?_, by simp [encode, hnil.1], by simp, ?_⟩
      · rw [hnil.1]
        rfl
      · intro hb
        exact absurd hnil.2 hb
  | cons f fs' ih =>
      intro b₁ b₂ hfree h
      rw [encode_cons] at h
      rcases append_eq_field_cons f b₁ b₂ (encode fs') h with ⟨n, hn⟩ | ⟨b₁', hb, hr⟩
      · have hfn : SOH ∉ f.take n := fun hm =>
          hfree f (List.mem_cons_self f fs') (List.mem_of_mem_take hm)
        refine ⟨0, b₁, by simp, ?_, by simp [encode], by rw [hn]; exact hfn, ?_⟩
        · rw [splitSOH_no_delim b₁ (by rw [hn]; exact hfn)]
          rfl
        · intro _
          simp
      · obtain ⟨k', frag', hk'le, hsp, henc, hfr, hlt⟩ :=
          ih b₁' b₂ (fun x hx => hfree x (List.mem_cons_of_mem f hx)) hr
        refine ⟨k' + 1, frag', by simpa using hk'le, ?_, ?_, hfr, ?_⟩
        · rw [hb, splitSOH_field f b₁' (hfree f (List.mem_cons_self f fs')),
            hsp, List.take_succ_cons]
          rfl
        · rw [List.take_succ_cons, encode_cons, List.append_assoc,
            List.cons_append]
          rw [hb]
          congr 1
          rw [← henc]
        · intro hb₂
          have := hlt hb₂
          simp only [List.length_cons]
          omega

/-- Tokenising a mid-stream buffer: if the bytes delivered so far are the
encoding of the first `k` fields plus the current buffer `b`, then
`get_message` promotes the buffer's complete fields, reaching some
position `k' ≥ k` inside the message with a delimiter-free remainder. -/
lemma get_message_mid (fs : List (List Char)) (hfree : ∀ f ∈ fs, SOH ∉ f)
    (k : Nat) (hkle : k ≤ fs.length) (b rest : List Char)
    (henc : encode (fs.take k) ++ b ++ rest = encode fs) :
    ∃ k' frag', k' ≤ fs.length ∧ k ≤ k' ∧
      encode (fs.take k') ++ frag' ++ rest = encode fs ∧ SOH ∉ frag' ∧
      (rest ≠ [] → k' < fs.length) ∧
      get_message ⟨b, fs.take k⟩ = assemble frag' (fs.take k') := by
  have htfree : ∀ f ∈ fs.take k, SOH ∉ f := fun f hf =>
    hfree f (List.mem_of_mem_take hf)
  obtain ⟨k', frag', hk'le, hsp, hencp, hfr, hlt⟩ :=
    splitSOH_chunk fs (encode (fs.take k) ++ b) rest hfree
      (by rw [← henc, List.append_assoc])
  have hsp2 : splitSOH (encode (fs.take k) ++ b) = fs.take k ++ splitSOH b :=
    splitSOH_encode (fs.take k) b htfree
  have hlenk : (fs.take k).length = k := by
    rw [List.length_take]
    omega
  have hlenk' : (fs.take k').length = k' := by
    rw [List.length_take]
    omega
  have hkk' : k ≤ k' := by
    have hlen := congrArg List.length (hsp2.symm.trans hsp)
    rw [List.length_append, List.length_append, List.length_cons,
      List.length_nil, hlenk, hlenk'] at hlen
    have hpos : 0 < (splitSOH b).length :=
      List.length_pos.mpr (splitSOH_ne_nil b)
    omega
  have htake_eq : (fs.take k').take k = fs.take k := by
    rw [List.take_take]
    congr 1
    omega
  have hsb : splitSOH b = (fs.take k').drop k ++ [frag'] := by
    apply @List.append_cancel_left _ (fs.take k) _ _
    rw [← hsp2, hsp]
    conv_rhs => rw [← htake_eq]
    rw [← List.append_assoc, List.take_append_drop]
  refine ⟨k', frag', hk'le, hkk', ?_, hfr, hlt, ?_⟩
  · rw [List.append_assoc, ← List.append_assoc (encode (fs.take k')), hencp]
    exact henc
  · rw [get_message_eq]
    simp only []
    rw [hsb, List.getLastD_concat, List.dropLast_concat]
    congr 1
    conv_rhs => rw [← List.take_append_drop k (fs.take k')]
    rw [htake_eq]

lemma flatten_ne_nil_of_head (c : List Char) (cs : List (List Char))
    (hc : c ≠ []) : (c :: cs).flatten ≠ [] := by
  rw [List.flatten_cons]
  intro h
  exact hc (List.append_eq_nil.mp h).1

/-- Invariant for chunked delivery of one well-formed message: from a state
holding the first `k` fields and a partial fragment, delivering the rest of
the encoding in non-empty chunks returns no message until the final chunk,
then the whole message, leaving the parser empty. -/
lemma runChunks_aux (fs : List (List Char)) (hwf : wellFormed fs) :
    ∀ (chunks : List (List Char)) (k : Nat) (frag : List Char),
      (∀ c ∈ chunks, c ≠ []) → k < fs.length → SOH ∉ frag →
      encode (fs.take k) ++ frag ++ chunks.flatten = encode fs →
      chunks ≠ [] →
      runChunks ⟨frag, fs.take k⟩ chunks =
        (List.replicate (chunks.length - 1) none ++
          [some (FixMessage.append_strings fs)], FixParser.reset) := by
  intro chunks
  induction chunks with
  | nil =>
      intro k frag _ _ _ _ hne
      exact absurd rfl hne
  | cons c cs ih =>
      intro k frag hcne hk hfrag henc _
      have henc' : encode (fs.take k) ++ (frag ++ c) ++ cs.flatten = encode fs := by
        rw [← henc, List.flatten_cons]
        simp [List.append_assoc]
      obtain ⟨k', frag', hk'le, hkk', hencp, hfr', hltc, hgm⟩ :=
        get_message_mid fs hwf.2.1 k (Nat.le_of_lt hk) (frag ++ c) cs.flatten henc'
      have happ : append_buffer ⟨frag, fs.take k⟩ c = ⟨frag ++ c, fs.take k⟩ := rfl
      cases cs with
      | nil =>
          have hrest : (([] : List (List Char))).flatten = ([] : List Char) := rfl
          have hfin : encode (fs.take k') ++ frag' = encode fs := by
            rw [← hencp, hrest, List.append_nil]
          have hsp1 : fs.take k' ++ [frag'] = fs ++ [[]] := by
            have h1 : splitSOH (encode (fs.take k') ++ frag') =
                fs.take k' ++ [frag'] := by
              rw [splitSOH_encode _ _ (fun f hf => hwf.2.1 f (List.mem_of_mem_take hf)),
                splitSOH_no_delim frag' hfr']
            rw [← h1, hfin, splitSOH_encode_nil fs hwf.2.1]
          have hlenk' : (fs.take k').length = k' := by
            rw [List.length_take]
            omega
          have hkfull : k' = fs.length := by
            have hlen := congrArg List.length hsp1
            simp only [List.length_append, List.length_cons, List.length_nil,
              hlenk'] at hlen
            omega
          have htk : fs.take k' = fs := by
            rw [hkfull, List.take_length]
          have hfrnil : frag' = [] := by
            rw [htk] at hsp1
            have := List.append_cancel_left hsp1
            simpa using this
          have hasm : assemble frag' (fs.take k') =
              (some (FixMessage.append_strings fs), FixParser.reset) := by
            rw [htk, hfrnil]
            have := assemble_garbage_msg [] fs [] [] (by simp) hwf
            simpa using this
          simp only [runChunks, happ, hgm, hasm]
          rfl
      | cons c₂ cs₂ =>
          have hrest : (c₂ :: cs₂).flatten ≠ [] :=
            flatten_ne_nil_of_head c₂ cs₂ (hcne c₂ (by simp))
          have hk'lt : k' < fs.length := hltc hrest
          have hasm : assemble frag' (fs.take k') =
              (none, ⟨frag', fs.take k'⟩) :=
            assemble_take fs hwf k' hk'lt frag'
          have htail := ih k' frag'
            (fun x hx => hcne x (List.mem_cons_of_mem c hx)) hk'lt hfr' hencp
            (by simp)
          have hr1 : get_message (append_buffer ⟨frag, fs.take k⟩ c) =
              (none, ⟨frag', fs.take k'⟩) := by
            rw [happ, hgm, hasm]
          have hrepl : (none : Option FixMessage) ::
              (List.replicate ((c₂ :: cs₂ : List (List Char)).length - 1) none ++
                [some (FixMessage.append_strings fs)]) =
              List.replicate ((c :: c₂ :: cs₂ : List (List Char)).length - 1) none ++
                [some (FixMessage.append_strings fs)] := by
            rw [show ((c :: c₂ :: cs₂ : List (List Char))).length - 1 =
              ((c₂ :: cs₂ : List (List Char)).length - 1) + 1 by simp]
            rw [List.replicate_succ, List.cons_append]
          conv_lhs => rw [runChunks]
          rw [hr1]
          dsimp only
          rw [htail]
          dsimp only
          rw [hrepl]

/-! ### Failed extraction calls -/

lemma resync_idem (l : List (List Char)) : resync (resync l) = resync l := by
  rcases h : resync l with _ | ⟨f, t⟩
  · rfl
  · have hf : isStart f = true := resync_head_start l f (by rw [h]; rfl)
    exact resync_cons_start f t hf

lemma assemble_none_shape (b : List Char) (l : List (List Char)) (q : FixParser)
    (h : assemble b l = (none, q)) :
    q = ⟨b, resync l⟩ ∧
      (resync l = [] ∨ findChecksum (resync l) = (resync l).length) := by
  simp only [assemble] at h
  split_ifs at h with h1 h2 h3
  · rw [Prod.mk.injEq] at h
    have hl : l = [] := List.length_eq_zero.mp h1
    subst hl
    exact ⟨h.2.symm, Or.inl rfl⟩
  · rw [Prod.mk.injEq] at h
    exact ⟨h.2.symm, Or.inl (List.length_eq_zero.mp h2)⟩
  · rw [Prod.mk.injEq] at h
    exact ⟨h.2.symm, Or.inr h3⟩
  · exact absurd (Prod.mk.injEq _ _ _ _ ▸ h).1 (by simp)

lemma assemble_none_fix (b : List Char) (l : List (List Char)) (q : FixParser)
    (h : assemble b l = (none, q)) : assemble q.buf q.pairs = (none, q) := by
  obtain ⟨hq, hcase⟩ := assemble_none_shape b l q h
  subst hq
  rcases hcase with hnil | hfix
  · rw [hnil]
    exact assemble_nil b
  · rcases hr : resync l with _ | ⟨f, t⟩
    · exact assemble_nil b
    · have hf : isStart f = true := resync_head_start l f (by rw [hr]; rfl)
      rw [hr] at hfix
      dsimp only
      simp only [assemble]
      rw [if_neg (by simp), resync_cons_start f t hf, if_neg (by simp),
        if_pos hfix]

lemma get_message_buf_no_delim (p : FixParser) :
    SOH ∉ ((get_message p).2).buf := by
  rw [get_message_eq, assemble_buf]
  exact mem_splitSOH_no_delim p.buf _
    (getLastD_mem _ (splitSOH_ne_nil p.buf) [])

/-- A failed extraction call leaves a fixed point: calling `get_message`
again returns no message and the very same state. -/
lemma get_message_none_fix (p p' : FixParser)
    (h : get_message p = (none, p')) : get_message p' = (none, p') := by
  have hbuf : SOH ∉ p'.buf := by
    have := get_message_buf_no_delim p
    rw [h] at this
    exact this
  rw [get_message_eq] at h ⊢
  rw [splitSOH_no_delim p'.buf hbuf]
  simp only [List.getLastD, List.dropLast, List.append_nil]
  exact assemble_none_fix _ _ p' h

/-! ### A start marker at the head of the pending sequence -/

lemma assemble_cons_start_cases (b f : List Char) (rest : List (List Char))
    (hf : isStart f = true) :
    (∃ q, assemble b (f :: rest) = (none, q) ∧ q.pairs.head? = some f) ∨
      (∃ m q, assemble b (f :: rest) = (some m, q) ∧
        m.fields.head? = some (parseField f)) := by
  simp only [assemble]
  rw [if_neg (by simp), resync_cons_start f rest hf, if_neg (by simp)]
  by_cases hidx : findChecksum (f :: rest) = (f :: rest).length
  · rw [if_pos hidx]
    exact Or.inl ⟨⟨b, f :: rest⟩, rfl, rfl⟩
  · rw [if_neg hidx]
    refine Or.inr ⟨_, _, rfl, ?_⟩
    rw [List.take_succ_cons]
    rfl

lemma step_keeps_head (p : FixParser) (f : List Char) (op : Op)
    (hh : p.pairs.head? = some f) (hf : isStart f = true) :
    ((step p op).1.pairs.head? = some f ∧ (step p op).2 = none) ∨
      (∃ m, (step p op).2 = some m ∧ m.fields.head? = some (parseField f)) := by
  cases op with
  | append b => exact Or.inl ⟨hh, rfl⟩
  | extract =>
      rcases hp : p.pairs with _ | ⟨f₀, rest⟩
      · rw [hp] at hh
        simp at hh
      · have hf₀ : f₀ = f := by
          rw [hp] at hh
          simpa using hh
        subst hf₀
        have hgm : get_message p =
            assemble ((splitSOH p.buf).getLastD [])
              (f₀ :: (rest ++ (splitSOH p.buf).dropLast)) := by
          rw [get_message_eq, hp, List.cons_append]
        rcases assemble_cons_start_cases ((splitSOH p.buf).getLastD []) f₀
            (rest ++ (splitSOH p.buf).dropLast) hf with
          ⟨q, hq, hqh⟩ | ⟨m, q, hq, hm⟩
        · left
          constructor
          · show ((get_message p).2).pairs.head? = some f₀
            rw [hgm, hq]
            exact hqh
          · show (get_message p).1 = none
            rw [hgm, hq]
        · right
          refine ⟨m, ?_, hm⟩
          show (get_message p).1 = some m
          rw [hgm, hq]

/-- Once a start-marker field is at the head of the pending sequence, any
sequence of operations either keeps it at the head or consumes it as the
first field of an emitted message. -/
lemma runOps_keeps_head (ops : List Op) :
    ∀ (p : FixParser) (f : List Char),
      p.pairs.head? = some f → isStart f = true →
      (runOps p ops).1.pairs.head? = some f ∨
        ∃ m ∈ (runOps p ops).2, m.fields.head? = some (parseField f) := by
  induction ops with
  | nil =>
      intro p f hh _
      exact Or.inl hh
  | cons op ops' ih =>
      intro p f hh hf
      rcases step_keeps_head p f op hh hf with ⟨hh', hnone⟩ | ⟨m, hsome, hm⟩
      · rcases ih (step p op).1 f hh' hf with h1 | ⟨m, hm1, hm2⟩
        · exact Or.inl h1
        · refine Or.inr ⟨m, ?_, hm2⟩
          simp only [runOps]
          exact List.mem_append_right _ hm1
      · refine Or.inr ⟨m, ?_, hm⟩
        simp only [runOps, hsome]
        exact List.mem_cons_self m _

lemma get_message_pending_incomplete (fs : List (List Char)) (hne : fs ≠ [])
    (hfree : ∀ f ∈ fs, SOH ∉ f) (hhead : isStart fs.headI = true)
    (hnochk : ∀ f ∈ fs, isChecksum f = false) :
    get_message ⟨encode fs, []⟩ = (none, ⟨[], fs⟩) := by
  have h0 : get_message ⟨encode fs ++ [], []⟩ = assemble [] ([] ++ fs) :=
    get_message_of_encode [] fs [] hfree (by simp)
  rw [List.append_nil] at h0
  rw [h0, List.nil_append]
  rcases fs with _ | ⟨f₀, rest⟩
  · exact absurd rfl hne
  · simp only [assemble]
    rw [if_neg (by simp), resync_cons_start f₀ rest hhead, if_neg (by simp),
      if_pos (findChecksum_all_not _ hnochk)]

lemma get_message_pending_complete (fs : List (List Char)) (e : List Char)
    (hne : fs ≠ []) (hfree : ∀ f ∈ fs, SOH ∉ f) (hhead : isStart fs.headI = true)
    (hnochk : ∀ f ∈ fs, isChecksum f = false) (hefree : SOH ∉ e)
    (hechk : isChecksum e = true) :
    get_message ⟨e ++ [SOH], fs⟩ =
      (some (FixMessage.append_strings (fs ++ [e])), FixParser.reset) := by
  have hwf : wellFormed (fs ++ [e]) := by
    refine ⟨by simp, ?_, ?_, ?_, ?_⟩
    · intro f hf
      rcases List.mem_append.mp hf with h1 | h2
      · exact hfree f h1
      · rw [List.mem_singleton.mp h2]
        exact hefree
    · rcases fs with _ | ⟨f₀, rest⟩
      · exact absurd rfl hne
      · exact hhead
    · rw [List.dropLast_concat]
      exact hnochk
    · rw [List.getLastD_concat]
      exact hechk
  have henc : e ++ [SOH] = encode [e] ++ [] := by
    simp [encode]
  rw [henc, get_message_of_encode fs [e] [] (by simpa using hefree) (by simp)]
  have h1 := assemble_garbage_msg [] (fs ++ [e]) [] [] (by simp) hwf
  rw [List.append_nil, List.nil_append] at h1
  exact h1

/-! ### Emitted messages always begin with a start-marker field -/

lemma assemble_some_head (b : List Char) (l : List (List Char))
    (m : FixMessage) (q : FixParser) (h : assemble b l = (some m, q)) :
    ∃ g, isStart g = true ∧ m.fields.head? = some (parseField g) := by
  simp only [assemble] at h
  split_ifs at h with h1 h2 h3
  · exact absurd (Prod.mk.injEq _ _ _ _ ▸ h).1 (by simp)
  · exact absurd (Prod.mk.injEq _ _ _ _ ▸ h).1 (by simp)
  · exact absurd (Prod.mk.injEq _ _ _ _ ▸ h).1 (by simp)
  · rcases hr : resync l with _ | ⟨g, t⟩
    · rw [hr] at h2
      simp at h2
    · refine ⟨g, resync_head_start l g (by rw [hr]; rfl), ?_⟩
      rw [hr] at h
      have hm : m = FixMessage.append_strings
          ((g :: t).take (findChecksum (g :: t) + 1)) := by
        have := (Prod.mk.injEq _ _ _ _ ▸ h).1
        exact (Option.some.injEq _ _ ▸ this).symm
      rw [hm, List.take_succ_cons]
      rfl

lemma parseField_of_start (g : List Char) (hg : isStart g = true) :
    parseField g = (8, 'F' :: 'I' :: 'X' :: '.' :: g.drop 6) := by
  have htake : g.take 6 = ['8', '=', 'F', 'I', 'X', '.'] := of_decide_eq_true hg
  have hshape : g = '8' :: '=' :: 'F' :: 'I' :: 'X' :: '.' :: g.drop 6 := by
    conv_lhs => rw [← List.take_append_drop 6 g, htake]
    rfl
  conv_lhs => rw [hshape]
  rfl

/-! ### The checked variants never raise -/

lemma getLastD_irrel {α : Type} (l : List α) (z : α) :
    ∀ d d', (z :: l).getLastD d = (z :: l).getLastD d' := by
  induction l generalizing z with
  | nil => intro d d'; rfl
  | cons w ws ih =>
      intro d d'
      rw [List.getLastD_cons d z (w :: ws), List.getLastD_cons d' z (w :: ws)]

lemma listGetE_last {α : Type} (l : List α) (h : l ≠ []) (d : α) :
    listGetE l (l.length - 1) = Except.ok (l.getLastD d) := by
  induction l generalizing d with
  | nil => exact absurd rfl h
  | cons a l' ih =>
      cases l' with
      | nil => rfl
      | cons b l'' =>
          have h1 : (a :: b :: l'').length - 1 = (b :: l'').length - 1 + 1 := by
            simp
          have h2 : listGetE (a :: b :: l'') ((b :: l'').length - 1 + 1) =
              listGetE (b :: l'') ((b :: l'').length - 1) := rfl
          rw [h1, h2, ih (by simp) d, List.getLastD_cons d a (b :: l''),
            getLastD_irrel l'' b d a]

lemma resyncE_eq (l : List (List Char)) : resyncE l = Except.ok (resync l) := by
  induction l with
  | nil => rfl
  | cons f rest ih =>
      by_cases hf : isStart f
      · simp [resyncE, listGetE, resync, hf]
      · simp [resyncE, listGetE, listPopE, resync, hf, ih]

lemma findChecksumE_eq (l : List (List Char)) :
    findChecksumE l = Except.ok (findChecksum l) := by
  induction l with
  | nil => rfl
  | cons f rest ih =>
      by_cases hf : isChecksum f
      · simp [findChecksumE, listGetE, findChecksum, hf]
      · simp [findChecksumE, listGetE, findChecksum, hf, ih]

lemma assembleE_eq (b : List Char) (l : List (List Char)) :
    assembleE b l = Except.ok (assemble b l) := by
  simp only [assembleE, assemble, resyncE_eq, findChecksumE_eq]
  split_ifs <;> rfl

lemma get_messageE_eq (p : FixParser) :
    get_messageE p = Except.ok (get_message p) := by
  have hne := splitSOH_ne_nil p.buf
  simp only [get_messageE, get_message]
  rw [if_pos (List.length_pos.mpr hne), if_pos (List.length_pos.mpr hne)]
  rw [listGetE_last (splitSOH p.buf) hne []]
  exact assembleE_eq _ _

/-! ### Recovery from an arbitrary state -/

lemma splitSOH_append_soh (y : List Char) :
    ∀ x : List Char, ∃ pre, pre ≠ [] ∧
      splitSOH (x ++ SOH :: y) = pre ++ splitSOH y := by
  intro x
  induction x with
  | nil => exact ⟨[[]], by simp, by simp [splitSOH]⟩
  | cons c x' ih =>
      obtain ⟨pre, hne, hpre⟩ := ih
      by_cases hc : c = SOH
      · refine ⟨[] :: pre, by simp, ?_⟩
        rw [List.cons_append, splitSOH_cons, if_pos hc, hpre, List.cons_append]
      · rcases pre with _ | ⟨p₀, pre'⟩
        · exact absurd rfl hne
        · refine ⟨(c :: p₀) :: pre', by simp, ?_⟩
          rw [List.cons_append, splitSOH_cons, if_neg hc, hpre]
          rfl

/-- Appending a fresh delimiter plus one complete message to any parser
state makes the next extraction call return a message. -/
lemma get_message_recovery (p : FixParser) :
    ∃ m q, get_message (append_buffer p
      (SOH :: encode ["8=FIX.4.2".toList, "10=000".toList])) = (some m, q) := by
  obtain ⟨pre, hpre_ne, hpre⟩ :=
    splitSOH_append_soh (encode ["8=FIX.4.2".toList, "10=000".toList]) p.buf
  have hsenc : splitSOH (encode ["8=FIX.4.2".toList, "10=000".toList]) =
      ["8=FIX.4.2".toList, "10=000".toList, []] := by
    rw [splitSOH_encode_nil _ (by decide)]
    rfl
  have hbuf : (append_buffer p
      (SOH :: encode ["8=FIX.4.2".toList, "10=000".toList])).buf =
      p.buf ++ SOH :: encode ["8=FIX.4.2".toList, "10=000".toList] := rfl
  rw [get_message_eq, hbuf, hpre, hsenc]
  have hform : pre ++ ["8=FIX.4.2".toList, "10=000".toList, []] =
      (pre ++ ["8=FIX.4.2".toList, "10=000".toList]) ++ [[]] := by
    simp
  rw [hform, List.getLastD_concat, List.dropLast_concat]
  have hpairs0 : (append_buffer p
      (SOH :: encode ["8=FIX.4.2".toList, "10=000".toList])).pairs = p.pairs := rfl
  have hpairs : p.pairs ++ (pre ++ ["8=FIX.4.2".toList, "10=000".toList]) =
      (p.pairs ++ pre) ++ "8=FIX.4.2".toList :: ["10=000".toList] := by
    simp
  rw [hpairs0, hpairs]
  obtain ⟨t, ht⟩ := resync_to_suffix "8=FIX.4.2".toList (by decide)
    (p.pairs ++ pre) ["10=000".toList]
  have hckmem : "10=000".toList ∈ t ++ "8=FIX.4.2".toList :: ["10=000".toList] := by
    simp
  have hlt := findChecksum_lt_of_mem _ _ hckmem (by decide)
  simp only [assemble]
  rw [if_neg (by simp), ht, if_neg (by simp), if_neg (Nat.ne_of_lt hlt)]
  exact ⟨_, _, rfl⟩

/-! ## Claim theorems -/

/-- Claim C1: appending one complete well-formed message in a single call
and extracting once returns a message built from exactly the input's field
strings in the same order, and afterwards both the raw buffer and the
pending field sequence are empty. -/
theorem claim_C1_round_trip (fs : List (List Char)) (hwf : wellFormed fs) :
    get_message (append_buffer FixParser.reset (encode fs)) =
      (some (FixMessage.append_strings fs), FixParser.reset) := by
  have h : append_buffer FixParser.reset (encode fs) = ⟨encode fs, []⟩ := by
    simp [append_buffer, FixParser.reset]
  rw [h]
  exact get_message_encode_wf fs hwf

/-- Witness for C1: the spec's concrete scenario, the four fields of
`8=FIX.4.2␁9=5␁35=0␁10=128␁`, in order, with the parser left empty. -/
theorem claim_C1_witness :
    wellFormed ["8=FIX.4.2".toList, "9=5".toList, "35=0".toList, "10=128".toList] ∧
    get_message (append_buffer FixParser.reset
        (encode ["8=FIX.4.2".toList, "9=5".toList, "35=0".toList, "10=128".toList])) =
      (some ⟨[(8, "FIX.4.2".toList), (9, "5".toList), (35, "0".toList),
        (10, "128".toList)]⟩, FixParser.reset) := by
  refine ⟨by decide, ?_⟩
  rw [claim_C1_round_trip _ (by decide)]
  rfl

/-- Claim C2: any partition of a complete well-formed message into
consecutive non-empty chunks, delivered across separate append calls each
followed by an extraction call, returns no message on every call before the
final chunk and the identical whole message (the same as a single-buffer
append) on the call after the final chunk; in addition, failed extraction
calls are harmless to repeat anywhere in the interleaving, because a failed
call leaves a state on which another call returns no message and changes
nothing. -/
theorem claim_C2_fragmentation_invariance (fs chunks : List (List Char))
    (hwf : wellFormed fs) (hne : chunks ≠ []) (hcne : ∀ c ∈ chunks, c ≠ [])
    (hflat : chunks.flatten = encode fs) :
    runChunks FixParser.reset chunks =
      (List.replicate (chunks.length - 1) none ++
        [some (FixMessage.append_strings fs)], FixParser.reset) ∧
    get_message (append_buffer FixParser.reset (encode fs)) =
      (some (FixMessage.append_strings fs), FixParser.reset) ∧
    (∀ (p p' : FixParser) (r : Option FixMessage),
      get_message p = (r, p') → r = none → get_message p' = (none, p')) := by
  refine ⟨?_, claim_C1_round_trip fs hwf, ?_⟩
  · have h0 : (FixParser.reset : FixParser) = ⟨[], fs.take 0⟩ := rfl
    rw [h0]
    apply runChunks_aux fs hwf chunks 0 [] hcne
      (List.length_pos.mpr hwf.1) (by simp)
    · rw [List.take_zero]
      simpa [encode] using hflat
    · exact hne
  · intro p p' r h hr
    subst hr
    exact get_message_none_fix p p' h

/-- Witness for C2: the concrete message delivered in three ragged chunks
(splitting mid-field and mid-message) gives None, None, then the message. -/
theorem claim_C2_witness :
    runChunks FixParser.reset
      ["8=FI".toList, "X.4.2".toList ++ [SOH] ++ "9=5".toList,
        [SOH] ++ "35=0".toList ++ [SOH] ++ "10=128".toList ++ [SOH]] =
      ([none, none, some (FixMessage.append_strings
        ["8=FIX.4.2".toList, "9=5".toList, "35=0".toList, "10=128".toList])],
       FixParser.reset) := by
  have h := claim_C2_fragmentation_invariance
    ["8=FIX.4.2".toList, "9=5".toList, "35=0".toList, "10=128".toList]
    ["8=FI".toList, "X.4.2".toList ++ [SOH] ++ "9=5".toList,
      [SOH] ++ "35=0".toList ++ [SOH] ++ "10=128".toList ++ [SOH]]
    (by decide) (by decide) (by decide) (by decide)
  exact h.1

/-- Claim C3: two complete well-formed messages concatenated into one
buffer are extracted by two successive calls, in order, with exactly their
own fields each, and a third call returns None. -/
theorem claim_C3_pipelining (fs1 fs2 : List (List Char))
    (h1 : wellFormed fs1) (h2 : wellFormed fs2) :
    get_message (append_buffer FixParser.reset (encode fs1 ++ encode fs2)) =
      (some (FixMessage.append_strings fs1), ⟨[], fs2⟩) ∧
    get_message ⟨[], fs2⟩ =
      (some (FixMessage.append_strings fs2), FixParser.reset) ∧
    get_message FixParser.reset = (none, FixParser.reset) := by
  refine ⟨?_, ?_, by decide⟩
  · have hfree : ∀ f ∈ fs1 ++ fs2, SOH ∉ f := by
      intro f hf
      rcases List.mem_append.mp hf with hx | hx
      · exact h1.2.1 f hx
      · exact h2.2.1 f hx
    have h : append_buffer FixParser.reset (encode fs1 ++ encode fs2) =
        ⟨encode (fs1 ++ fs2) ++ [], []⟩ := by
      simp [append_buffer, FixParser.reset, encode_append]
    rw [h, get_message_of_encode [] (fs1 ++ fs2) [] hfree (by simp),
      List.nil_append]
    have := assemble_garbage_msg [] fs1 fs2 [] (by simp) h1
    rw [List.nil_append] at this
    exact this
  · rw [get_message_buf_nil fs2]
    have := assemble_garbage_msg [] fs2 [] [] (by simp) h2
    rw [List.nil_append, List.append_nil] at this
    exact this

/-- Witness for C3: two concrete messages in one buffer drain one per call,
then None. -/
theorem claim_C3_witness :
    get_message (append_buffer FixParser.reset
        (encode ["8=FIX.4.2".toList, "9=5".toList, "10=128".toList] ++
         encode ["8=FIX.4.2".toList, "35=1".toList, "10=007".toList])) =
      (some (FixMessage.append_strings
        ["8=FIX.4.2".toList, "9=5".toList, "10=128".toList]),
       ⟨[], ["8=FIX.4.2".toList, "35=1".toList, "10=007".toList]⟩) ∧
    get_message ⟨[], ["8=FIX.4.2".toList, "35=1".toList, "10=007".toList]⟩ =
      (some (FixMessage.append_strings
        ["8=FIX.4.2".toList, "35=1".toList, "10=007".toList]),
       FixParser.reset) ∧
    get_message FixParser.reset = (none, FixParser.reset) :=
  claim_C3_pipelining
    ["8=FIX.4.2".toList, "9=5".toList, "10=128".toList]
    ["8=FIX.4.2".toList, "35=1".toList, "10=007".toList]
    (by decide) (by decide)

/-- Claim C4: delimiter-terminated fields that do not match the
start-marker prefix, preceding a complete well-formed message in the same
buffer, are all discarded: extraction returns a message with exactly the
valid message's fields and leaves the parser empty. -/
theorem claim_C4_resynchronisation (g fs : List (List Char))
    (hg : ∀ x ∈ g, SOH ∉ x ∧ isStart x = false) (hwf : wellFormed fs) :
    get_message (append_buffer FixParser.reset (encode g ++ encode fs)) =
      (some (FixMessage.append_strings fs), FixParser.reset) := by
  have h : append_buffer FixParser.reset (encode g ++ encode fs) =
      ⟨encode g ++ encode fs, []⟩ := by
    simp [append_buffer, FixParser.reset]
  rw [h]
  exact get_message_garbage_encode g fs hg hwf

/-- Witness for C4: three garbage fields (including a stray checksum field
and a tag-8 field with a non-FIX value) before a valid message are all
dropped. -/
theorem claim_C4_witness :
    get_message (append_buffer FixParser.reset
        (encode ["9=99".toList, "10=000".toList, "8=FIXT.1.1".toList] ++
         encode ["8=FIX.4.2".toList, "9=5".toList, "10=128".toList])) =
      (some (FixMessage.append_strings
        ["8=FIX.4.2".toList, "9=5".toList, "10=128".toList]),
       FixParser.reset) :=
  claim_C4_resynchronisation
    ["9=99".toList, "10=000".toList, "8=FIXT.1.1".toList]
    ["8=FIX.4.2".toList, "9=5".toList, "10=128".toList]
    (by decide) (by decide)

/-- Claim C5: a start-marker field at the head of the pending sequence is
never discarded by any later append/extract sequence — it stays at the head
until it is consumed as the first field of an emitted message; and
concretely, a pending start-marker message without a checksum field yields
None while staying pending, after which appending one delimiter-terminated
checksum field yields a single message holding all previously pending
fields plus the new one. -/
theorem claim_C5_start_marker_persistence :
    (∀ (ops : List Op) (p : FixParser) (f : List Char),
      p.pairs.head? = some f → isStart f = true →
      (runOps p ops).1.pairs.head? = some f ∨
        ∃ m ∈ (runOps p ops).2, m.fields.head? = some (parseField f)) ∧
    (∀ fs : List (List Char), fs ≠ [] → (∀ f ∈ fs, SOH ∉ f) →
      isStart fs.headI = true → (∀ f ∈ fs, isChecksum f = false) →
      get_message (append_buffer FixParser.reset (encode fs)) =
        (none, ⟨[], fs⟩) ∧
      ∀ e : List Char, SOH ∉ e → isChecksum e = true →
        get_message (append_buffer ⟨[], fs⟩ (e ++ [SOH])) =
          (some (FixMessage.append_strings (fs ++ [e])), FixParser.reset)) := by
  constructor
  · exact fun ops => runOps_keeps_head ops
  · intro fs hne hfree hhead hnochk
    constructor
    · have h : append_buffer FixParser.reset (encode fs) = ⟨encode fs, []⟩ := by
        simp [append_buffer, FixParser.reset]
      rw [h]
      exact get_message_pending_incomplete fs hne hfree hhead hnochk
    · intro e hefree hechk
      have h : append_buffer ⟨[], fs⟩ (e ++ [SOH]) = ⟨e ++ [SOH], fs⟩ := by
        simp [append_buffer]
      rw [h]
      exact get_message_pending_complete fs e hne hfree hhead hnochk hefree hechk

/-- Witness for C5: a single extraction keeps the concrete start marker at
the head, and the concrete incomplete message completes after its checksum
field arrives. -/
theorem claim_C5_witness :
    ((runOps ⟨[], ["8=FIX.4.2".toList, "9=5".toList]⟩ [Op.extract]).1.pairs.head? =
        some ("8=FIX.4.2".toList) ∨
      ∃ m ∈ (runOps ⟨[], ["8=FIX.4.2".toList, "9=5".toList]⟩ [Op.extract]).2,
        m.fields.head? = some (parseField ("8=FIX.4.2".toList))) ∧
    get_message (append_buffer FixParser.reset
        (encode ["8=FIX.4.2".toList, "9=5".toList])) =
      (none, ⟨[], ["8=FIX.4.2".toList, "9=5".toList]⟩) ∧
    get_message (append_buffer ⟨[], ["8=FIX.4.2".toList, "9=5".toList]⟩
        ("10=128".toList ++ [SOH])) =
      (some (FixMessage.append_strings
        ["8=FIX.4.2".toList, "9=5".toList, "10=128".toList]),
       FixParser.reset) := by
  refine ⟨?_, ?_, ?_⟩
  · exact claim_C5_start_marker_persistence.1 [Op.extract]
      ⟨[], ["8=FIX.4.2".toList, "9=5".toList]⟩ ("8=FIX.4.2".toList) rfl (by decide)
  · exact (claim_C5_start_marker_persistence.2
      ["8=FIX.4.2".toList, "9=5".toList] (by decide) (by decide) (by decide)
      (by decide)).1
  · exact (claim_C5_start_marker_persistence.2
      ["8=FIX.4.2".toList, "9=5".toList] (by decide) (by decide) (by decide)
      (by decide)).2 "10=128".toList (by decide) (by decide)

/-- Claim C6 counterexample: a failed `get_message` call does not, in
general, leave the state unchanged: with buffer `8=FIX.4.2␁` and no pending
pairs, the call returns None yet moves the complete field out of the raw
buffer into the pending sequence. -/
theorem claim_C6_counterexample :
    (get_message (append_buffer FixParser.reset
        ("8=FIX.4.2".toList ++ [SOH]))).1 = none ∧
    (get_message (append_buffer FixParser.reset
        ("8=FIX.4.2".toList ++ [SOH]))).2 ≠
      append_buffer FixParser.reset ("8=FIX.4.2".toList ++ [SOH]) := by
  decide

/-- Claim C6 (amended): a failed `get_message` call may promote complete
fields from the buffer to the pending sequence and discard leading
non-start-marker fields, but it loses no message data and its result state
is a fixed point: an immediately repeated call returns None and leaves the
state exactly unchanged. -/
theorem claim_C6_failure_idempotent (p p' : FixParser) (r : Option FixMessage)
    (h : get_message p = (r, p')) (hr : r = none) :
    get_message p' = (none, p') := by
  subst hr
  exact get_message_none_fix p p' h

/-- Witness for C6: the state reached by the counterexample's failed call
is indeed a fixed point of `get_message`. -/
theorem claim_C6_witness :
    get_message ⟨[], ["8=FIX.4.2".toList]⟩ =
      (none, ⟨[], ["8=FIX.4.2".toList]⟩) :=
  claim_C6_failure_idempotent
    (append_buffer FixParser.reset ("8=FIX.4.2".toList ++ [SOH]))
    ⟨[], ["8=FIX.4.2".toList]⟩ none (by decide) rfl

/-- Claim C7 counterexample: immediately after an append the raw buffer can
contain a delimiter byte — promotion to the pending sequence happens on the
next extraction call, not during the append itself. -/
theorem claim_C7_counterexample :
    SOH ∈ (append_buffer FixParser.reset ("8=FIX.".toList ++ [SOH])).buf := by
  decide

/-- Claim C7 (amended): the buffer invariant holds after reset and after
every `get_message` call: the raw buffer left behind by an extraction call
never contains a delimiter byte, because every delimiter-terminated prefix
is promoted to the pending field sequence during that call; appends,
however, may leave delimiters in the buffer until the next extraction. -/
theorem claim_C7_buffer_delim_free :
    (∀ p : FixParser, SOH ∉ ((get_message p).2).buf) ∧
    SOH ∉ (FixParser.reset).buf := by
  constructor
  · exact get_message_buf_no_delim
  · simp [FixParser.reset]

/-- Witness for C7: the counterexample's post-append state, once extracted
from, has a delimiter-free buffer. -/
theorem claim_C7_witness :
    SOH ∉ ((get_message (append_buffer FixParser.reset
      ("8=FIX.".toList ++ [SOH]))).2).buf :=
  claim_C7_buffer_delim_free.1
    (append_buffer FixParser.reset ("8=FIX.".toList ++ [SOH]))

/-- Claim C8: `get_message` is total — the checked-access variant, in which
every fallible Python list operation surfaces a raised IndexError as an
error value, always returns `ok` of the plain result (so extraction returns
a message or None and never raises); and no state is unrecoverable: from
any parser state, appending a delimiter plus one complete message makes the
next extraction return a message. -/
theorem claim_C8_totality :
    (∀ p : FixParser, get_messageE p = Except.ok (get_message p)) ∧
    (∀ p : FixParser, ∃ m q, get_message (append_buffer p
      (SOH :: encode ["8=FIX.4.2".toList, "10=000".toList])) = (some m, q)) :=
  ⟨get_messageE_eq, get_message_recovery⟩

/-- Witness for C8: a state holding garbage bytes and a stranded pending
field neither raises nor blocks recovery. -/
theorem claim_C8_witness :
    get_messageE ⟨"garbage".toList, ["9=5".toList]⟩ =
      Except.ok (get_message ⟨"garbage".toList, ["9=5".toList]⟩) ∧
    ∃ m q, get_message (append_buffer ⟨"garbage".toList, ["9=5".toList]⟩
      (SOH :: encode ["8=FIX.4.2".toList, "10=000".toList])) = (some m, q) :=
  ⟨claim_C8_totality.1 ⟨"garbage".toList, ["9=5".toList]⟩,
   claim_C8_totality.2 ⟨"garbage".toList, ["9=5".toList]⟩⟩

/-- Claim C9: for a field `tag ++ '=' :: value` with a non-empty decimal
digit tag, the checksum scan's string test `field[:3] == "10="` succeeds if
and only if the tag is exactly `10` — a tag such as `100` or `1000` is
never selected, so the test cannot misidentify the frame terminator. -/
theorem claim_C9_checksum_test_exact (tag value : List Char) (hne : tag ≠ [])
    (hdig : ∀ c ∈ tag, c.isDigit = true) :
    (isChecksum (tag ++ '=' :: value) = true ↔ tag = ['1', '0']) := by
  constructor
  · intro h
    simp only [isChecksum, decide_eq_true_eq] at h
    rcases tag with _ | ⟨a, tag1⟩
    · exact absurd rfl hne
    · rcases tag1 with _ | ⟨b, tag2⟩
      · have h' : a :: '=' :: value.take 1 = ['1', '0', '='] := h
        injection h' with h1 h2
        injection h2 with h3 h4
        exact absurd h3 (by decide)
      · rcases tag2 with _ | ⟨c, tag3⟩
        · have h' : ([a, b, '='] : List Char) = ['1', '0', '='] := h
          injection h' with h1 h2
          injection h2 with h3 h4
          rw [h1, h3]
        · have h' : ([a, b, c] : List Char) = ['1', '0', '='] := h
          injection h' with h1 h2
          injection h2 with h3 h4
          injection h4 with h5 h6
          have hd := hdig c (by simp)
          rw [h5] at hd
          exact absurd hd (by decide)
  · intro h
    rw [h]
    rfl

/-- Witness for C9: a field with tag 100 is not selected by the checksum
test. -/
theorem claim_C9_witness :
    isChecksum ("100".toList ++ '=' :: "7".toList) = true ↔
      "100".toList = ['1', '0'] :=
  claim_C9_checksum_test_exact "100".toList "7".toList (by decide) (by decide)

/-- Claim C10: resynchronisation keeps a pending field at the head exactly
when its first six characters are the literal `8=FIX.`; a buffer of fields
none of which matches that literal (for example one starting `8=FIXT.1.1`)
is discarded wholesale with no message; and no extracted message ever
begins with the parsed field (8, "FIXT.1.1"). -/
theorem claim_C10_start_marker_literal :
    (∀ (f : List Char) (rest : List (List Char)),
      (resync (f :: rest)).head? = some f ↔ f.take 6 = "8=FIX.".toList) ∧
    (∀ fs : List (List Char), (∀ f ∈ fs, SOH ∉ f ∧ isStart f = false) →
      get_message (append_buffer FixParser.reset (encode fs)) =
        (none, FixParser.reset)) ∧
    (∀ (p : FixParser) (m : FixMessage) (q : FixParser),
      get_message p = (some m, q) →
      m.fields.head? ≠ some (8, "FIXT.1.1".toList)) := by
  refine ⟨?_, ?_, ?_⟩
  · intro f rest
    constructor
    · intro h
      exact of_decide_eq_true (resync_head_start (f :: rest) f h)
    · intro h
      rw [resync_cons_start f rest (decide_eq_true h)]
      rfl
  · intro fs hfs
    have h : append_buffer FixParser.reset (encode fs) =
        ⟨encode fs ++ [], []⟩ := by
      simp [append_buffer, FixParser.reset]
    rw [h, get_message_of_encode [] fs [] (fun f hf => (hfs f hf).1) (by simp),
      List.nil_append]
    have hres : resync fs = [] :=
      resync_all_not_start fs (fun f hf => (hfs f hf).2)
    rcases fs with _ | ⟨f₀, rest⟩
    · rfl
    · simp only [assemble]
      rw [if_neg (by simp), hres]
      rfl
  · intro p m q h heq
    rw [get_message_eq] at h
    obtain ⟨g, hgs, hhead⟩ := assemble_some_head _ _ m q h
    rw [parseField_of_start g hgs] at hhead
    have hcontra := hhead.symm.trans heq
    rw [Option.some.injEq, Prod.mk.injEq] at hcontra
    have hv := hcontra.2
    have h4 : ('F' :: 'I' :: 'X' :: '.' :: g.drop 6).take 4 = "FIXT".toList := by
      rw [hv]
      rfl
    have h3 : ('F' :: 'I' :: 'X' :: '.' :: g.drop 6).take 4 =
        (['F', 'I', 'X', '.'] : List Char) := rfl
    rw [h3] at h4
    exact absurd h4 (by decide)

/-- Witness for C10: the head-retention test fails for `8=FIXT.1.1`, and a
message led by that field (with following fields and even a checksum) is
entirely discarded with no output. -/
theorem claim_C10_witness :
    ((resync ["8=FIXT.1.1".toList]).head? = some ("8=FIXT.1.1".toList) ↔
      ("8=FIXT.1.1".toList).take 6 = "8=FIX.".toList) ∧
    get_message (append_buffer FixParser.reset
        (encode ["8=FIXT.1.1".toList, "9=5".toList, "10=128".toList])) =
      (none, FixParser.reset) :=
  ⟨claim_C10_start_marker_literal.1 ("8=FIXT.1.1".toList) [],
   claim_C10_start_marker_literal.2.1
     ["8=FIXT.1.1".toList, "9=5".toList, "10=128".toList] (by decide)⟩
